import Mathlib

/-!
Shallow embedding of the Minesweeper terminal game (src/main.rs) and proofs
about its board engine: adjacency computation, mine placement, flood-fill
reveal, first-move safety, cursor movement, flag toggling and the linear
coordinate-lookup scans.

Rust `usize` values are modelled as `Nat`; the `as i8` casts that the source
performs on rows, columns and board dimensions are modelled faithfully by
`toI8` (twos-complement truncation to the low byte), and `i8` addition by
`wrapI8` (the release-profile wrapping semantics; a debug build would abort
on the same overflows, so every divergence exhibited below is a divergence
in both build profiles unless noted otherwise).
-/

/-- One grid position, mirroring `struct Cell` of the source.
`adjacent_mines` is an `i8` in the source; it only ever holds 0..8, so it is
modelled as `Int` with plain addition. -/
structure Cell where
  is_mine : Bool
  is_revealed : Bool
  is_flagged : Bool
  adjacent_mines : Int
  row : Nat
  col : Nat
deriving DecidableEq, Repr

/-- The full grid plus cursor state, mirroring `struct Board`. -/
structure Board where
  width : Nat
  height : Nat
  mines : Nat
  cells : List Cell
  selected_row : Nat
  selected_col : Nat
deriving DecidableEq, Repr

/-- The game session, mirroring `struct Minesweeper`. -/
structure Minesweeper where
  board : Board
  first_move : Bool
deriving DecidableEq, Repr

/-- Placeholder cell used with `List.getD`; every access that matters is
proved to be in range, where `getD` agrees with the panicking Rust index. -/
def defaultCell : Cell := ⟨false, false, false, 0, 0, 0⟩

/-- Twos-complement truncation of a `usize` value to `i8`, the semantics of
the `as i8` casts in the source. -/
def toI8 (n : Nat) : Int := (((n + 128) % 256 : Nat) : Int) - 128

/-- Wrapping `i8` addition result normalisation: the value of an `i8` sum in
a release build (a debug build panics when the mathematical sum leaves
[-128, 127]; on all in-range sums `wrapI8` is the identity). -/
def wrapI8 (x : Int) : Int := (x + 128) % 256 - 128

/-- A freshly generated cell: no mine, unrevealed, unflagged, count 0. -/
def freshCell (row col : Nat) : Cell :=
  { is_mine := false, is_revealed := false, is_flagged := false,
    adjacent_mines := 0, row := row, col := col }

/-- `generate_cells` of the source: `width*height` default cells in
row-major order, each tagged with its own row and column. -/
def generate_cells (width height : Nat) : List Cell :=
  (List.range height).flatMap fun row =>
    (List.range width).map fun col => freshCell row col

/-- The linear scan shared by `relative_cell_index` and `cell_from_pos`:
iterate over the cells with their index and return the first index whose
cell has the given row and column, compared after `as i8` truncation, as in
the source loops. -/
def find_pos (row col : Int) : List Cell → Nat → Option Nat
  | [], _ => none
  | c :: rest, i =>
    if toI8 c.row = row ∧ toI8 c.col = col then some i
    else find_pos row col rest (i + 1)

/-- `cell_from_pos` of the source (arguments are `i8` values). -/
def cell_from_pos (row col : Int) (board : Board) : Option Nat :=
  find_pos row col board.cells 0

/-- `relative_cell_index` of the source: offset the cell coordinates by the
deltas in `i8` arithmetic, bounds-check against `height as i8` and
`width as i8`, then scan for the cell carrying those coordinates. -/
def relative_cell_index (delta_row delta_col : Int) (cell : Cell) (board : Board) :
    Option Nat :=
  let row := wrapI8 (toI8 cell.row + delta_row)
  let col := wrapI8 (toI8 cell.col + delta_col)
  if row < 0 ∨ row ≥ toI8 board.height ∨ col < 0 ∨ col ≥ toI8 board.width then none
  else find_pos row col board.cells 0

/-- `cells_around` of the source: the eight neighbor lookups in their fixed
source order. -/
def cells_around (board : Board) (cell : Cell) : List (Option Nat) :=
  [relative_cell_index (-1) (-1) cell board,
   relative_cell_index (-1) 0 cell board,
   relative_cell_index (-1) 1 cell board,
   relative_cell_index 0 (-1) cell board,
   relative_cell_index 0 1 cell board,
   relative_cell_index 1 (-1) cell board,
   relative_cell_index 1 0 cell board,
   relative_cell_index 1 1 cell board]

/-- `adjacent_mines` of the source: count the present neighbor indices whose
cell is a mine. -/
def adjacent_mines (board : Board) (cell : Cell) : Int :=
  (cells_around board cell).foldl
    (fun count idx =>
      match idx with
      | some i => if (board.cells.getD i defaultCell).is_mine then count + 1 else count
      | none => count) 0

/-- Overwrite the `adjacent_mines` field of a cell. -/
def setAdj (c : Cell) (v : Int) : Cell := { c with adjacent_mines := v }

/-- One iteration of the `calculate_adjacent_mines` loop body:
`board.cells[index].adjacent_mines = adjacent_mines(&board, &board.cells[index])`. -/
def calcAdjStep (b : Board) (index : Nat) : Board :=
  let c := b.cells.getD index defaultCell
  { b with cells := b.cells.set index (setAdj c (adjacent_mines b c)) }

/-- The `for index in 0..board.cells.len()` loop of `calculate_adjacent_mines`. -/
def calcAdjGo (b : Board) : List Nat → Board
  | [] => b
  | i :: rest => calcAdjGo (calcAdjStep b i) rest

/-- `calculate_adjacent_mines` of the source. -/
def calculate_adjacent_mines (b : Board) : Board :=
  calcAdjGo b (List.range b.cells.length)

/-- Set the `is_revealed` field of a cell to true, the effect of
`board.cells[i].is_revealed = true`. -/
def setRev (c : Cell) : Cell := { c with is_revealed := true }

/-- Overwrite the `is_mine` field of a cell. -/
def setMine (c : Cell) (v : Bool) : Cell := { c with is_mine := v }

/-- Flip the `is_flagged` field of a cell, the effect of
`cells[i].is_flagged = !cells[i].is_flagged`. -/
def flipFlag (c : Cell) : Cell := { c with is_flagged := !c.is_flagged }

/-- The recursive flood-fill `reveal_cells_around`, made structurally
recursive on an explicit fuel parameter (the source recursion carries no
fuel; `reveal_go_fuel_stable` below proves the fuel supplied by
`reveal_cells_around` is never exhausted, which is the termination content
of the source recursion).  The list argument is the `cells_around` worklist
of the current call; an out-of-range index is skipped (the source would
panic there, and no index produced by `cells_around` is ever out of range). -/
def reveal_go_fuel : Nat → Board → List (Option Nat) → Board
  | 0, b, _ => b
  | _ + 1, b, [] => b
  | fuel + 1, b, none :: rest => reveal_go_fuel fuel b rest
  | fuel + 1, b, some j :: rest =>
    match b.cells.get? j with
    | none => reveal_go_fuel fuel b rest
    | some cj =>
      if cj.is_mine = false ∧ cj.is_revealed = false then
        let b1 : Board := { b with cells := b.cells.set j (setRev cj) }
        let b2 : Board :=
          if (b1.cells.getD j defaultCell).adjacent_mines = 0 then
            reveal_go_fuel fuel b1
              (cells_around b1 (b1.cells.getD j defaultCell))
          else b1
        reveal_go_fuel fuel b2 rest
      else reveal_go_fuel fuel b rest

/-- `reveal_cells_around` of the source, entered with enough fuel for the
whole recursion (proved by `reveal_go_fuel_stable`). -/
def reveal_cells_around (board : Board) (cell_index : Nat) : Board :=
  reveal_go_fuel (9 * board.cells.length + 10) board
    (cells_around board (board.cells.getD cell_index defaultCell))

/-- The `while mines_placed < mines` loop of `place_mines`.  The random
number generator is an oracle stream `rng`; `rng k % cells.length` models
`rng.gen_range(0..cells.len())` (for an empty cell vector `gen_range`
panics, modelled as `none`).  Fuel makes the loop a total function: a
`none` result means the loop is still running when the fuel runs out. -/
def place_mines_go (rng : Nat → Nat) :
    Nat → List Cell → Nat → Nat → Nat → Option (List Cell)
  | 0, cells, mines, mines_placed, _ =>
    if mines_placed < mines then none else some cells
  | fuel + 1, cells, mines, mines_placed, k =>
    if mines_placed < mines then
      if cells.length = 0 then none
      else
        let index := rng k % cells.length
        if (cells.getD index defaultCell).is_mine = false then
          place_mines_go rng fuel
            (cells.set index (setMine (cells.getD index defaultCell) true))
            mines (mines_placed + 1) (k + 1)
        else place_mines_go rng fuel cells mines mines_placed (k + 1)
    else some cells

/-- `place_mines` of the source, with the rng oracle and fuel made explicit. -/
def place_mines (rng : Nat → Nat) (fuel : Nat) (cells : List Cell) (mines : Nat) :
    Option (List Cell) :=
  place_mines_go rng fuel cells mines 0 0

/-- The `Key::Left` handler of the main loop. -/
def move_left (b : Board) : Board :=
  if 0 < b.selected_col then { b with selected_col := b.selected_col - 1 } else b

/-- The `Key::Right` handler of the main loop (`width - 1` is `usize`
subtraction; the cursor-in-bounds hypotheses of the theorems force
`width > 0`, where it agrees with `Nat` subtraction). -/
def move_right (b : Board) : Board :=
  if b.selected_col < b.width - 1 then { b with selected_col := b.selected_col + 1 } else b

/-- The `Key::Up` handler of the main loop. -/
def move_up (b : Board) : Board :=
  if 0 < b.selected_row then { b with selected_row := b.selected_row - 1 } else b

/-- The `Key::Down` handler of the main loop. -/
def move_down (b : Board) : Board :=
  if b.selected_row < b.height - 1 then { b with selected_row := b.selected_row + 1 } else b

/-- The four arrow-key actions. -/
inductive Direction where
  | left
  | right
  | up
  | down
deriving DecidableEq, Repr

/-- A `MoveCursor` action: the arrow-key handlers only touch the cursor
fields of the board and leave `first_move` alone. -/
def move_cursor (d : Direction) (g : Minesweeper) : Minesweeper :=
  { g with board :=
      match d with
      | .left => move_left g.board
      | .right => move_right g.board
      | .up => move_up g.board
      | .down => move_down g.board }

/-- Result of a reveal (space key) action: the game either continues with a
new state or ends with `You lost!`. -/
inductive StepOutcome where
  | ok : Minesweeper → StepOutcome
  | lost : Minesweeper → StepOutcome
deriving DecidableEq, Repr

/-- The tail of the space-key handler, from `let cell = &mut ...` on: reveal
the selected cell (flood-filling first when its recorded adjacency is zero)
if it is not yet revealed, then clear `first_move`. -/
def revealPhase (g : Minesweeper) (cell_index : Nat) : Minesweeper :=
  let cell := g.board.cells.getD cell_index defaultCell
  let b :=
    if cell.is_revealed = false then
      let b1 := if cell.adjacent_mines = 0 then reveal_cells_around g.board cell_index
                else g.board
      { b1 with cells := b1.cells.set cell_index (setRev (b1.cells.getD cell_index defaultCell)) }
    else g.board
  { board := b, first_move := if g.first_move then false else g.first_move }

/-- The whole space-key handler: look up the cursor cell (`none`
models the `expect` panic), handle a mine (first-move relocation clears the
mine and recomputes adjacency; otherwise the game is lost and the loop
breaks), then run the reveal phase. -/
def reveal_action (g : Minesweeper) : Option StepOutcome :=
  match cell_from_pos (toI8 g.board.selected_row) (toI8 g.board.selected_col) g.board with
  | none => none
  | some cell_index =>
    if (g.board.cells.getD cell_index defaultCell).is_mine then
      if g.first_move then
        let cleared := g.board.cells.set cell_index
          (setMine (g.board.cells.getD cell_index defaultCell) false)
        let b := calculate_adjacent_mines { g.board with cells := cleared }
        some (StepOutcome.ok (revealPhase { g with board := b } cell_index))
      else some (StepOutcome.lost g)
    else some (StepOutcome.ok (revealPhase g cell_index))

/-- The whole f-key handler: look up the cursor cell (`none`
models the `expect` panic) and flip its flag. -/
def toggle_flag_action (g : Minesweeper) : Option Minesweeper :=
  match cell_from_pos (toI8 g.board.selected_row) (toI8 g.board.selected_col) g.board with
  | none => none
  | some cell_index =>
    let flipped := g.board.cells.set cell_index
      (flipFlag (g.board.cells.getD cell_index defaultCell))
    some { g with board := { g.board with cells := flipped } }

/-- Number of mine cells of a cell list. -/
def mineCount (l : List Cell) : Nat := l.countP (fun c => c.is_mine)

/-- Number of revealed cells of a cell list. -/
def revealedCount (l : List Cell) : Nat := l.countP (fun c => c.is_revealed)

/-- Number of non-mine cells of a cell list. -/
def nonMineCount (l : List Cell) : Nat := l.countP (fun c => !c.is_mine)

/-- Number of unrevealed cells of a cell list. -/
def unrevealedCount (l : List Cell) : Nat := l.countP (fun c => !c.is_revealed)

/-- A board whose cell list has the layout produced by `generate_cells`:
row-major order with each cell tagged by its own coordinates.  Mine, flag,
reveal and adjacency fields are unconstrained, so the predicate is stable
under everything the engine does after generation. -/
def WellFormed (b : Board) : Prop :=
  b.cells.length = b.height * b.width ∧
  ∀ k, k < b.cells.length →
    (b.cells.getD k defaultCell).row = k / b.width ∧
    (b.cells.getD k defaultCell).col = k % b.width

instance (b : Board) : Decidable (WellFormed b) := by
  unfold WellFormed
  infer_instance

/-- The eight neighbor offsets, in the fixed order of `cells_around`. -/
def neighborDeltas : List (Int × Int) :=
  [(-1, -1), (-1, 0), (-1, 1), (0, -1), (0, 1), (1, -1), (1, 0), (1, 1)]

/-- Modelled from the claim wording: the number of in-bounds 8-neighbors
(orthogonal and diagonal) of the cell at (row, col) whose `is_mine` is true,
with the neighbor at (row+dr, col+dc) located at its row-major index.  This
is the specification side of the adjacency claims, stated with unbounded
integer arithmetic (no `i8` truncation). -/
def specAdjacentMines (b : Board) (row col : Nat) : Nat :=
  neighborDeltas.countP fun d =>
    decide (0 ≤ (row : Int) + d.1) && decide ((row : Int) + d.1 < (b.height : Int)) &&
    decide (0 ≤ (col : Int) + d.2) && decide ((col : Int) + d.2 < (b.width : Int)) &&
    (b.cells.getD (((row : Int) + d.1).toNat * b.width + ((col : Int) + d.2).toNat)
        defaultCell).is_mine

/-- Cells related by one potential flood-fill update: either untouched, or a
previously unrevealed non-mine cell whose `is_revealed` was set. -/
def RevStep (c c' : Cell) : Prop :=
  c' = c ∨ (c.is_mine = false ∧ c.is_revealed = false ∧ c' = setRev c)

/-- Cell lists related pointwise by `RevStep`: what a flood-fill run may do. -/
def RevealsOnly (l l' : List Cell) : Prop := List.Forall₂ RevStep l l'

/-- What one flood-fill call may do to a board: cursor, dimensions and mine
count fields unchanged, and cells changed only by `RevStep`. -/
def RevealOutcome (b b' : Board) : Prop :=
  b'.width = b.width ∧ b'.height = b.height ∧ b'.mines = b.mines ∧
  b'.selected_row = b.selected_row ∧ b'.selected_col = b.selected_col ∧
  RevealsOnly b.cells b'.cells

/-- Cells sharing their coordinates (all the scan loops read). -/
def LayoutEq (c c' : Cell) : Prop := c.row = c'.row ∧ c.col = c'.col

/-- Cells sharing coordinates and mine status (all `adjacent_mines` reads). -/
def LayoutMineEq (c c' : Cell) : Prop :=
  c.row = c'.row ∧ c.col = c'.col ∧ c.is_mine = c'.is_mine

/-- Mark the cell at one index of a cell list as a mine. -/
def mineAt (l : List Cell) (i : Nat) : List Cell :=
  l.set i (setMine (l.getD i defaultCell) true)

/-- Flip the flag of the cell at one index of a cell list. -/
def flagAt (l : List Cell) (i : Nat) : List Cell :=
  l.set i (flipFlag (l.getD i defaultCell))

/-- A 1-column, 129-row board with a mine in its second cell: tall enough
that `height as i8` is negative, which silently corrupts every neighbor
bounds check. -/
def colBoard129 : Board :=
  { width := 1, height := 129, mines := 1,
    cells := mineAt (generate_cells 1 129) 1,
    selected_row := 0, selected_col := 0 }

/-- The 2x2 first-move-safety scenario: mines everywhere except (0,0),
adjacency computed, cursor on the mine at (1,1), first move still pending. -/
def relocGame : Minesweeper :=
  { board := calculate_adjacent_mines
      { width := 2, height := 2, mines := 3,
        cells := mineAt (mineAt (mineAt (generate_cells 2 2) 1) 2) 3,
        selected_row := 1, selected_col := 1 },
    first_move := true }

/-- A 2x1 board with a mine at (0,1) and adjacency computed. -/
def rowBoard21 : Board :=
  calculate_adjacent_mines
    { width := 2, height := 1, mines := 1,
      cells := mineAt (generate_cells 2 1) 1,
      selected_row := 0, selected_col := 0 }

/-- `rowBoard21` with the safe cell (0,0) flagged and the cursor on it,
after the first move. -/
def flagGame : Minesweeper :=
  { board := { rowBoard21 with cells := flagAt rowBoard21.cells 0 },
    first_move := false }

/-- `rowBoard21` with the mine cell (0,1) flagged and the cursor on it,
after the first move. -/
def flagMineGame : Minesweeper :=
  { board := { rowBoard21 with cells := flagAt rowBoard21.cells 1, selected_col := 1 },
    first_move := false }

/-- A mine-free 2x2 board with the cursor at the origin. -/
def zeroBoard : Board :=
  { width := 2, height := 2, mines := 0, cells := generate_cells 2 2,
    selected_row := 0, selected_col := 0 }

/-- A fresh game session on `zeroBoard`. -/
def zeroGame : Minesweeper := { board := zeroBoard, first_move := true }

/-- Mine count of the board a reveal action continued with (0 when the
action was a loss or a lookup failure). -/
def afterMineCount (o : Option StepOutcome) : Nat :=
  match o with
  | some (StepOutcome.ok g) => mineCount g.board.cells
  | _ => 0

/-- A cell of the board a reveal action continued with (the placeholder
when the action was a loss or a lookup failure). -/
def afterCell (o : Option StepOutcome) (i : Nat) : Cell :=
  match o with
  | some (StepOutcome.ok g) => g.board.cells.getD i defaultCell
  | _ => defaultCell

/-! Basic list and integer bridges. -/

theorem getD_of_get?_some {l : List Cell} {j : Nat} {x : Cell}
    (h : l.get? j = some x) : l.getD j defaultCell = x := by
  rw [List.getD_eq_getElem?_getD, ← List.get?_eq_getElem?, h]
  rfl

theorem get?_of_lt {l : List Cell} {j : Nat} (h : j < l.length) :
    l.get? j = some (l.getD j defaultCell) := by
  rw [List.getD_eq_getElem?_getD, ← List.get?_eq_getElem?,
    List.get?_eq_get h]
  rfl

theorem getD_set_self {l : List Cell} {i : Nat} (x : Cell)
    (h : i < l.length) : (l.set i x).getD i defaultCell = x := by
  rw [List.getD_eq_getElem?_getD, List.getElem?_set_self h]
  rfl

theorem getD_set_ne {l : List Cell} {i j : Nat} (x : Cell)
    (h : i ≠ j) : (l.set i x).getD j defaultCell = l.getD j defaultCell := by
  rw [List.getD_eq_getElem?_getD, List.getElem?_set_ne h,
    ← List.getD_eq_getElem?_getD]

theorem set_getD_self {l : List Cell} {i : Nat} (h : i < l.length) :
    l.set i (l.getD i defaultCell) = l := by
  apply List.ext_getElem?
  intro j
  rw [List.getElem?_set]
  by_cases hij : i = j
  · subst hij
    simp only [if_pos rfl, if_pos h, List.getD_eq_getElem?_getD,
      List.getElem?_eq_getElem h]
    rfl
  · simp [hij]

theorem toI8_of_le {n : Nat} (h : n ≤ 127) : toI8 n = n := by
  unfold toI8
  have h1 : n + 128 < 256 := by omega
  rw [Nat.mod_eq_of_lt h1]
  push_cast
  omega

theorem wrapI8_of {x : Int} (h1 : -128 ≤ x) (h2 : x ≤ 127) : wrapI8 x = x := by
  unfold wrapI8
  rw [Int.emod_eq_of_lt (by omega) (by omega)]
  omega

/-! Pointwise list relations. -/

theorem forall₂_refl_of {R : Cell → Cell → Prop} (hR : ∀ c, R c c)
    (l : List Cell) : List.Forall₂ R l l := by
  induction l with
  | nil => exact List.Forall₂.nil
  | cons a t ih => exact List.Forall₂.cons (hR a) ih

theorem forall₂_trans_of {R : Cell → Cell → Prop}
    (hR : ∀ a b c, R a b → R b c → R a c) :
    ∀ {l1 l2 l3 : List Cell}, List.Forall₂ R l1 l2 → List.Forall₂ R l2 l3 →
      List.Forall₂ R l1 l3 := by
  intro l1 l2 l3 h12 h23
  induction h12 generalizing l3 with
  | nil => cases h23; exact List.Forall₂.nil
  | cons hab htail ih =>
    cases h23 with
    | cons hbc htail' => exact List.Forall₂.cons (hR _ _ _ hab hbc) (ih htail')

theorem forall₂_set_of {R : Cell → Cell → Prop} (hR : ∀ c, R c c) :
    ∀ (l : List Cell) (i : Nat) (x : Cell), R (l.getD i defaultCell) x →
      List.Forall₂ R l (l.set i x) := by
  intro l
  induction l with
  | nil => intro i x _; exact List.Forall₂.nil
  | cons a t ih =>
    intro i x hx
    cases i with
    | zero => exact List.Forall₂.cons hx (forall₂_refl_of hR t)
    | succ i => exact List.Forall₂.cons (hR a) (ih i x hx)

theorem forall₂_length {R : Cell → Cell → Prop} {l l' : List Cell}
    (h : List.Forall₂ R l l') : l.length = l'.length :=
  List.Forall₂.length_eq h

theorem forall₂_getD {R : Cell → Cell → Prop} :
    ∀ {l l' : List Cell}, List.Forall₂ R l l' →
      ∀ k, k < l.length → R (l.getD k defaultCell) (l'.getD k defaultCell) := by
  intro l l' h
  induction h with
  | nil => intro k hk; simp at hk
  | cons hab htail ih =>
    intro k hk
    cases k with
    | zero => exact hab
    | succ k => exact ih k (by simpa using hk)

theorem forall₂_of_pointwise {R : Cell → Cell → Prop} :
    ∀ (l l' : List Cell), l.length = l'.length →
      (∀ k, k < l.length → R (l.getD k defaultCell) (l'.getD k defaultCell)) →
      List.Forall₂ R l l' := by
  intro l
  induction l with
  | nil =>
    intro l' hlen _
    cases l' with
    | nil => exact List.Forall₂.nil
    | cons b t' => simp at hlen
  | cons a t ih =>
    intro l' hlen hpt
    cases l' with
    | nil => simp at hlen
    | cons b t' =>
      refine List.Forall₂.cons (hpt 0 (by simp)) (ih t' (by simpa using hlen) ?_)
      intro k hk
      exact hpt (k + 1) (by simpa using hk)

/-! Properties of the linear coordinate scan. -/

theorem find_pos_congr {r c : Int} :
    ∀ {l l' : List Cell}, List.Forall₂ LayoutEq l l' →
      ∀ s, find_pos r c l s = find_pos r c l' s := by
  intro l l' h
  induction h with
  | nil => intro s; rfl
  | @cons a b l1 l2 hab htail ih =>
    intro s
    obtain ⟨hrow, hcol⟩ := hab
    simp only [find_pos]
    by_cases hp : toI8 a.row = r ∧ toI8 a.col = c
    · rw [if_pos hp, if_pos (by rw [← hrow, ← hcol]; exact hp)]
    · rw [if_neg hp, if_neg (by rw [← hrow, ← hcol]; exact hp), ih]

theorem find_pos_some_bound {r c : Int} :
    ∀ (l : List Cell) (s j : Nat), find_pos r c l s = some j →
      s ≤ j ∧ j - s < l.length := by
  intro l
  induction l with
  | nil => intro s j h; simp [find_pos] at h
  | cons a t ih =>
    intro s j h
    simp only [find_pos] at h
    by_cases hp : toI8 a.row = r ∧ toI8 a.col = c
    · rw [if_pos hp] at h
      cases h
      constructor
      · exact Nat.le_refl _
      · simp
    · rw [if_neg hp] at h
      obtain ⟨h1, h2⟩ := ih (s + 1) j h
      constructor
      · omega
      · simp only [List.length_cons]
        omega

theorem find_pos_exists {r c : Int} :
    ∀ (l : List Cell) (s : Nat),
      (∃ cc ∈ l, toI8 cc.row = r ∧ toI8 cc.col = c) →
      ∃ j, find_pos r c l s = some j := by
  intro l
  induction l with
  | nil => intro s h; simp at h
  | cons a t ih =>
    intro s h
    simp only [find_pos]
    by_cases hp : toI8 a.row = r ∧ toI8 a.col = c
    · exact ⟨s, if_pos hp⟩
    · rw [if_neg hp]
      apply ih
      obtain ⟨cc, hmem, hcc⟩ := h
      rcases List.mem_cons.mp hmem with heq | hmem'
      · exact absurd (heq ▸ hcc) hp
      · exact ⟨cc, hmem', hcc⟩

theorem find_pos_none {r c : Int} :
    ∀ (l : List Cell) (s : Nat),
      (∀ cc ∈ l, ¬(toI8 cc.row = r ∧ toI8 cc.col = c)) →
      find_pos r c l s = none := by
  intro l
  induction l with
  | nil => intro s _; rfl
  | cons a t ih =>
    intro s h
    simp only [find_pos]
    rw [if_neg (h a (List.mem_cons_self a t))]
    exact ih (s + 1) fun cc hm => h cc (List.mem_cons_of_mem a hm)

theorem find_pos_first {r c : Int} :
    ∀ (l : List Cell) (s t : Nat), t < l.length →
      (toI8 ((l.getD t defaultCell).row) = r ∧ toI8 ((l.getD t defaultCell).col) = c) →
      (∀ m, m < t → ¬(toI8 ((l.getD m defaultCell).row) = r ∧
        toI8 ((l.getD m defaultCell).col) = c)) →
      find_pos r c l s = some (s + t) := by
  intro l
  induction l with
  | nil => intro s t ht; simp at ht
  | cons a t ih =>
    intro s tt htt hpred hmin
    simp only [find_pos]
    cases tt with
    | zero =>
      simp only [List.getD_cons_zero] at hpred
      rw [if_pos hpred]
      rfl
    | succ tt' =>
      have h0 := hmin 0 (Nat.succ_pos _)
      simp only [List.getD_cons_zero] at h0
      simp only [List.getD_cons_succ] at hpred
      rw [if_neg h0]
      rw [ih (s + 1) tt' (by simpa using htt) hpred ?_]
      · congr 1
        omega
      · intro m hm
        have := hmin (m + 1) (by omega)
        simpa only [List.getD_cons_succ] using this

/-! Characterisation of `generate_cells`. -/

theorem generate_cells_eq_map (w h : Nat) :
    generate_cells w h = (List.range (h * w)).map fun i => freshCell (i / w) (i % w) := by
  induction h with
  | zero => simp [generate_cells]
  | succ h ih =>
    have hL : generate_cells w (h + 1) =
        generate_cells w h ++ (List.range w).map fun col => freshCell h col := by
      unfold generate_cells
      rw [List.range_succ, List.flatMap_append]
      simp
    rw [hL, ih]
    have hadd : (h + 1) * w = h * w + w := by ring
    rw [hadd, List.range_add, List.map_append, List.map_map]
    congr 1
    apply List.map_congr_left
    intro c hc
    have hcw : c < w := List.mem_range.mp hc
    have hw : 0 < w := by omega
    simp only [Function.comp]
    have hdiv : (h * w + c) / w = h + c / w := by
      rw [Nat.mul_comm h w, Nat.add_comm (w * h) c, Nat.add_mul_div_left c h hw,
        Nat.add_comm]
    have hmod : (h * w + c) % w = c % w := by
      rw [Nat.mul_comm h w, Nat.add_comm (w * h) c, Nat.add_mul_mod_self_left]
    rw [hdiv, hmod, Nat.div_eq_of_lt hcw, Nat.mod_eq_of_lt hcw, Nat.add_zero]

theorem length_generate_cells (w h : Nat) :
    (generate_cells w h).length = h * w := by
  rw [generate_cells_eq_map]
  simp

theorem getD_generate_cells {w h i : Nat} (hi : i < h * w) :
    (generate_cells w h).getD i defaultCell = freshCell (i / w) (i % w) := by
  rw [generate_cells_eq_map, List.getD_eq_getElem?_getD, List.getElem?_map,
    List.getElem?_range hi]
  rfl

theorem wellFormed_of_generated {b : Board}
    (h : b.cells = generate_cells b.width b.height) : WellFormed b := by
  constructor
  · rw [h, length_generate_cells]
  · intro k hk
    rw [h, length_generate_cells] at hk
    rw [h, getD_generate_cells hk]
    exact ⟨rfl, rfl⟩

theorem getD_mem {l : List Cell} {k : Nat} (h : k < l.length) :
    l.getD k defaultCell ∈ l :=
  List.get?_mem (get?_of_lt h)

/-! The scans on well-formed boards. -/

theorem wf_cell_bounds {b : Board} (hwf : WellFormed b) {cc : Cell}
    (hm : cc ∈ b.cells) : cc.row < b.height ∧ cc.col < b.width := by
  obtain ⟨hlen, hcells⟩ := hwf
  obtain ⟨n, hn, hcc⟩ := List.getElem_of_mem hm
  have hgetD : b.cells.getD n defaultCell = cc := by
    rw [List.getD_eq_getElem?_getD, List.getElem?_eq_getElem hn, hcc]
    rfl
  obtain ⟨hrow, hcol⟩ := hcells n hn
  rw [hgetD] at hrow hcol
  have hw0 : 0 < b.width := by
    rcases Nat.eq_zero_or_pos b.width with h0 | h0
    · rw [h0, Nat.mul_zero] at hlen; omega
    · exact h0
  constructor
  · rw [hrow]
    exact (Nat.div_lt_iff_lt_mul hw0).mpr (hlen ▸ hn)
  · rw [hcol]
    exact Nat.mod_lt _ hw0

theorem find_pos_wf {b : Board} (hwf : WellFormed b) (hw : b.width ≤ 127)
    (hh : b.height ≤ 127) {rn cn : Nat} (hr : rn < b.height) (hc : cn < b.width) :
    find_pos (rn : Int) (cn : Int) b.cells 0 = some (rn * b.width + cn) := by
  obtain ⟨hlen, hcells⟩ := hwf
  have hw0 : 0 < b.width := by omega
  have ht : rn * b.width + cn < b.cells.length := by
    have h1 : rn * b.width + cn < (rn + 1) * b.width := by
      rw [Nat.succ_mul]; omega
    have h2 : (rn + 1) * b.width ≤ b.height * b.width :=
      Nat.mul_le_mul_right _ (by omega)
    omega
  have := find_pos_first (r := (rn : Int)) (c := (cn : Int)) b.cells 0
    (rn * b.width + cn) ht ?_ ?_
  · rw [Nat.zero_add] at this
    exact this
  · obtain ⟨hrow, hcol⟩ := hcells _ ht
    have hdiv : (rn * b.width + cn) / b.width = rn := by
      rw [Nat.mul_comm rn b.width, Nat.add_comm (b.width * rn) cn,
        Nat.add_mul_div_left cn rn hw0, Nat.div_eq_of_lt hc, Nat.zero_add]
    have hmod : (rn * b.width + cn) % b.width = cn := by
      rw [Nat.mul_comm rn b.width, Nat.add_comm (b.width * rn) cn,
        Nat.add_mul_mod_self_left, Nat.mod_eq_of_lt hc]
    rw [hrow, hcol, hdiv, hmod]
    exact ⟨toI8_of_le (by omega), toI8_of_le (by omega)⟩
  · intro m hm hpred
    have hmlen : m < b.cells.length := by omega
    obtain ⟨hrow, hcol⟩ := hcells m hmlen
    obtain ⟨hp1, hp2⟩ := hpred
    rw [hrow] at hp1
    rw [hcol] at hp2
    have hmw : m / b.width < b.height := (Nat.div_lt_iff_lt_mul hw0).mpr (hlen ▸ hmlen)
    have hmm : m % b.width < b.width := Nat.mod_lt _ hw0
    rw [toI8_of_le (n := m / b.width) (by omega)] at hp1
    rw [toI8_of_le (n := m % b.width) (by omega)] at hp2
    have he1 : m / b.width = rn := by exact_mod_cast hp1
    have he2 : m % b.width = cn := by exact_mod_cast hp2
    have := Nat.div_add_mod m b.width
    rw [he1, he2] at this
    rw [Nat.mul_comm b.width rn] at this
    omega

theorem cell_from_pos_wf {b : Board} (hwf : WellFormed b) (hw : b.width ≤ 127)
    (hh : b.height ≤ 127) {rn cn : Nat} (hr : rn < b.height) (hc : cn < b.width) :
    cell_from_pos (toI8 rn) (toI8 cn) b = some (rn * b.width + cn) := by
  rw [cell_from_pos, toI8_of_le (by omega : rn ≤ 127), toI8_of_le (by omega : cn ≤ 127)]
  exact find_pos_wf ⟨hwf.1, hwf.2⟩ hw hh hr hc

theorem cell_from_pos_none {b : Board} (hwf : WellFormed b) (hw : b.width ≤ 127)
    (hh : b.height ≤ 127) {r c : Int}
    (hnot : ¬(0 ≤ r ∧ r < (b.height : Int) ∧ 0 ≤ c ∧ c < (b.width : Int))) :
    cell_from_pos r c b = none := by
  rw [cell_from_pos]
  apply find_pos_none
  intro cc hm hpred
  obtain ⟨hrh, hcw⟩ := wf_cell_bounds hwf hm
  obtain ⟨hp1, hp2⟩ := hpred
  rw [toI8_of_le (by omega : cc.row ≤ 127)] at hp1
  rw [toI8_of_le (by omega : cc.col ≤ 127)] at hp2
  apply hnot
  subst hp1
  subst hp2
  exact ⟨Int.ofNat_nonneg _, by exact_mod_cast hrh, Int.ofNat_nonneg _,
    by exact_mod_cast hcw⟩

theorem relative_cell_index_wf {b : Board} (hwf : WellFormed b) (hw : b.width ≤ 127)
    (hh : b.height ≤ 127) {k : Nat} (hk : k < b.cells.length) {dr dc : Int}
    (hdr1 : -1 ≤ dr) (hdr2 : dr ≤ 1) (hdc1 : -1 ≤ dc) (hdc2 : dc ≤ 1) :
    relative_cell_index dr dc (b.cells.getD k defaultCell) b =
      (if 0 ≤ ((k / b.width : Nat) : Int) + dr ∧
          ((k / b.width : Nat) : Int) + dr < (b.height : Int) ∧
          0 ≤ ((k % b.width : Nat) : Int) + dc ∧
          ((k % b.width : Nat) : Int) + dc < (b.width : Int)
       then some (((((k / b.width : Nat) : Int) + dr).toNat) * b.width +
         ((((k % b.width : Nat) : Int) + dc).toNat))
       else none) := by
  obtain ⟨hlen, hcells⟩ := hwf
  obtain ⟨hrow, hcol⟩ := hcells k hk
  have hw0 : 0 < b.width := by
    rcases Nat.eq_zero_or_pos b.width with h0 | h0
    · rw [h0, Nat.mul_zero] at hlen; omega
    · exact h0
  have hdivh : k / b.width < b.height := (Nat.div_lt_iff_lt_mul hw0).mpr (hlen ▸ hk)
  have hmodw : k % b.width < b.width := Nat.mod_lt _ hw0
  have hrowI : toI8 (b.cells.getD k defaultCell).row = ((k / b.width : Nat) : Int) := by
    rw [hrow]; exact toI8_of_le (by omega)
  have hcolI : toI8 (b.cells.getD k defaultCell).col = ((k % b.width : Nat) : Int) := by
    rw [hcol]; exact toI8_of_le (by omega)
  have hhI : toI8 b.height = (b.height : Int) := toI8_of_le hh
  have hwI : toI8 b.width = (b.width : Int) := toI8_of_le hw
  have hcast1 : ((k / b.width : Nat) : Int) < (b.height : Int) := by exact_mod_cast hdivh
  have hcast2 : ((k % b.width : Nat) : Int) < (b.width : Int) := by exact_mod_cast hmodw
  have hhosts : (b.height : Int) ≤ 127 := by exact_mod_cast hh
  have hwl : (b.width : Int) ≤ 127 := by exact_mod_cast hw
  have hwrap1 : wrapI8 (toI8 (b.cells.getD k defaultCell).row + dr) =
      ((k / b.width : Nat) : Int) + dr := by
    rw [hrowI]
    apply wrapI8_of
    · have : (0 : Int) ≤ ((k / b.width : Nat) : Int) := Int.ofNat_nonneg _
      omega
    · omega
  have hwrap2 : wrapI8 (toI8 (b.cells.getD k defaultCell).col + dc) =
      ((k % b.width : Nat) : Int) + dc := by
    rw [hcolI]
    apply wrapI8_of
    · have : (0 : Int) ≤ ((k % b.width : Nat) : Int) := Int.ofNat_nonneg _
      omega
    · omega
  rw [relative_cell_index]
  simp only [hwrap1, hwrap2, hhI, hwI]
  set r : Int := ((k / b.width : Nat) : Int) + dr with hrdef
  set c : Int := ((k % b.width : Nat) : Int) + dc with hcdef
  by_cases hin : 0 ≤ r ∧ r < (b.height : Int) ∧ 0 ≤ c ∧ c < (b.width : Int)
  · rw [if_pos hin]
    rw [if_neg (by omega : ¬(r < 0 ∨ r ≥ (b.height : Int) ∨ c < 0 ∨ c ≥ (b.width : Int)))]
    obtain ⟨h1, h2, h3, h4⟩ := hin
    have hr' : r = ((r.toNat : Nat) : Int) := (Int.toNat_of_nonneg h1).symm
    have hc' : c = ((c.toNat : Nat) : Int) := (Int.toNat_of_nonneg h3).symm
    have hrn : r.toNat < b.height := by omega
    have hcn : c.toNat < b.width := by omega
    rw [hr', hc']
    exact find_pos_wf ⟨hlen, hcells⟩ hw hh hrn hcn
  · rw [if_neg hin]
    rw [if_pos (by omega : r < 0 ∨ r ≥ (b.height : Int) ∨ c < 0 ∨ c ≥ (b.width : Int))]

/-! Adjacency counting. -/

theorem cells_around_eq_map (b : Board) (cell : Cell) :
    cells_around b cell =
      neighborDeltas.map fun d => relative_cell_index d.1 d.2 cell b := by
  simp [cells_around, neighborDeltas]

theorem adj_foldl_count (b : Board) :
    ∀ (l : List (Option Nat)) (a : Int),
      l.foldl
        (fun count idx =>
          match idx with
          | some i => if (b.cells.getD i defaultCell).is_mine then count + 1 else count
          | none => count) a =
      a + ((l.countP fun idx =>
          match idx with
          | some i => (b.cells.getD i defaultCell).is_mine
          | none => false : Nat) : Int) := by
  intro l
  induction l with
  | nil => intro a; simp
  | cons hd tl ih =>
    intro a
    cases hd with
    | none =>
      rw [List.foldl_cons, List.countP_cons]
      simp only [ih]
      norm_num
    | some i =>
      rw [List.foldl_cons, List.countP_cons]
      by_cases hm : (b.cells.getD i defaultCell).is_mine
      · simp only [hm, if_true, ih]
        push_cast
        ring
      · simp only [hm, if_false, ih]
        norm_num

theorem neighborDeltas_bounds :
    ∀ d ∈ neighborDeltas, -1 ≤ d.1 ∧ d.1 ≤ 1 ∧ -1 ≤ d.2 ∧ d.2 ≤ 1 := by
  decide

theorem adjacent_mines_spec {b : Board} (hwf : WellFormed b) (hw : b.width ≤ 127)
    (hh : b.height ≤ 127) {k : Nat} (hk : k < b.cells.length) :
    adjacent_mines b (b.cells.getD k defaultCell) =
      ((specAdjacentMines b (k / b.width) (k % b.width) : Nat) : Int) := by
  rw [adjacent_mines, cells_around_eq_map, adj_foldl_count, Int.zero_add,
    List.countP_map, specAdjacentMines]
  congr 1
  apply List.countP_congr
  intro d hd
  obtain ⟨h1, h2, h3, h4⟩ := neighborDeltas_bounds d hd
  simp only [Function.comp]
  rw [relative_cell_index_wf hwf hw hh hk h1 h2 h3 h4]
  by_cases hin : 0 ≤ ((k / b.width : Nat) : Int) + d.1 ∧
      ((k / b.width : Nat) : Int) + d.1 < (b.height : Int) ∧
      0 ≤ ((k % b.width : Nat) : Int) + d.2 ∧
      ((k % b.width : Nat) : Int) + d.2 < (b.width : Int)
  · rw [if_pos hin]
    obtain ⟨g1, g2, g3, g4⟩ := hin
    constructor
    · intro hm
      simp only [Bool.and_eq_true, decide_eq_true_eq]
      exact ⟨⟨⟨⟨g1, g2⟩, g3⟩, g4⟩, hm⟩
    · intro hc
      simp only [Bool.and_eq_true, decide_eq_true_eq] at hc
      exact hc.2
  · rw [if_neg hin]
    constructor
    · intro hfalse
      exact absurd hfalse (by simp)
    · intro hc
      exfalso
      apply hin
      simp only [Bool.and_eq_true, decide_eq_true_eq] at hc
      obtain ⟨⟨⟨⟨ha, hb⟩, hc2⟩, hd2⟩, _⟩ := hc
      exact ⟨ha, hb, hc2, hd2⟩

/-! Congruence of the lookups under updates that keep layout and mines. -/

theorem getD_default_of_ge {l : List Cell} {i : Nat} (h : l.length ≤ i) :
    l.getD i defaultCell = defaultCell := by
  rw [List.getD_eq_getElem?_getD, List.getElem?_eq_none h]
  rfl

theorem getD_mine_eq_of_forall₂ {l l' : List Cell}
    (h : List.Forall₂ LayoutMineEq l l') (i : Nat) :
    (l.getD i defaultCell).is_mine = (l'.getD i defaultCell).is_mine := by
  by_cases hi : i < l.length
  · exact (forall₂_getD h i hi).2.2
  · rw [getD_default_of_ge (by omega), getD_default_of_ge (by rw [← forall₂_length h]; omega)]

theorem relative_cell_index_congr {b b' : Board} (hw : b.width = b'.width)
    (hh : b.height = b'.height)
    (hcells : List.Forall₂ LayoutMineEq b.cells b'.cells)
    {c c' : Cell} (hc : LayoutEq c c') (dr dc : Int) :
    relative_cell_index dr dc c b = relative_cell_index dr dc c' b' := by
  simp only [relative_cell_index]
  rw [hc.1, hc.2, hw, hh]
  split_ifs
  · rfl
  · exact find_pos_congr (List.Forall₂.imp (fun a b hab => ⟨hab.1, hab.2.1⟩) hcells) 0

theorem adjacent_mines_congr {b b' : Board} (hw : b.width = b'.width)
    (hh : b.height = b'.height)
    (hcells : List.Forall₂ LayoutMineEq b.cells b'.cells)
    {c c' : Cell} (hc : LayoutEq c c') :
    adjacent_mines b c = adjacent_mines b' c' := by
  rw [adjacent_mines, adjacent_mines, cells_around_eq_map, cells_around_eq_map]
  have hmap : (neighborDeltas.map fun d => relative_cell_index d.1 d.2 c b) =
      neighborDeltas.map fun d => relative_cell_index d.1 d.2 c' b' :=
    List.map_congr_left fun d _ => relative_cell_index_congr hw hh hcells hc d.1 d.2
  rw [hmap, adj_foldl_count, adj_foldl_count]
  congr 2
  apply List.countP_congr
  intro idx _
  cases idx with
  | none => rfl
  | some i =>
    simp only []
    rw [getD_mine_eq_of_forall₂ hcells i]

theorem layoutMineEq_trans : ∀ a b c : Cell,
    LayoutMineEq a b → LayoutMineEq b c → LayoutMineEq a c := by
  intro a b c h1 h2
  exact ⟨h1.1.trans h2.1, h1.2.1.trans h2.2.1, h1.2.2.trans h2.2.2⟩

theorem setAdj_setAdj (c : Cell) (v v' : Int) : setAdj (setAdj c v) v' = setAdj c v' := rfl

theorem calcAdjGo_spec :
    ∀ (idxs : List Nat) (bcur b0 : Board),
      bcur.width = b0.width → bcur.height = b0.height → bcur.mines = b0.mines →
      bcur.selected_row = b0.selected_row → bcur.selected_col = b0.selected_col →
      List.Forall₂ LayoutMineEq b0.cells bcur.cells →
      (∀ k, k < b0.cells.length →
        bcur.cells.getD k defaultCell = b0.cells.getD k defaultCell ∨
        bcur.cells.getD k defaultCell =
          setAdj (b0.cells.getD k defaultCell)
            (adjacent_mines b0 (b0.cells.getD k defaultCell))) →
      (calcAdjGo bcur idxs).width = b0.width ∧
      (calcAdjGo bcur idxs).height = b0.height ∧
      (calcAdjGo bcur idxs).mines = b0.mines ∧
      (calcAdjGo bcur idxs).selected_row = b0.selected_row ∧
      (calcAdjGo bcur idxs).selected_col = b0.selected_col ∧
      (calcAdjGo bcur idxs).cells.length = b0.cells.length ∧
      ∀ k, k < b0.cells.length →
        (k ∈ idxs → (calcAdjGo bcur idxs).cells.getD k defaultCell =
          setAdj (b0.cells.getD k defaultCell)
            (adjacent_mines b0 (b0.cells.getD k defaultCell))) ∧
        (k ∉ idxs → (calcAdjGo bcur idxs).cells.getD k defaultCell =
          bcur.cells.getD k defaultCell) := by
  intro idxs
  induction idxs with
  | nil =>
    intro bcur b0 hw hh hm hsr hsc hf₂ _
    refine ⟨hw, hh, hm, hsr, hsc, (forall₂_length hf₂).symm, ?_⟩
    intro k _
    exact ⟨fun hk => absurd hk (List.not_mem_nil k), fun _ => rfl⟩
  | cons i rest ih =>
    intro bcur b0 hw hh hm hsr hsc hf₂ hdis
    have hlen : bcur.cells.length = b0.cells.length := (forall₂_length hf₂).symm
    have hstep : calcAdjGo bcur (i :: rest) = calcAdjGo (calcAdjStep bcur i) rest := rfl
    have hnextlen : (calcAdjStep bcur i).cells.length = b0.cells.length := by
      simp only [calcAdjStep, List.length_set]
      exact hlen
    have hi_layout : LayoutMineEq (bcur.cells.getD i defaultCell)
        (setAdj (bcur.cells.getD i defaultCell)
          (adjacent_mines bcur (bcur.cells.getD i defaultCell))) :=
      ⟨rfl, rfl, rfl⟩
    have hf₂next : List.Forall₂ LayoutMineEq b0.cells (calcAdjStep bcur i).cells := by
      apply forall₂_trans_of layoutMineEq_trans hf₂
      exact forall₂_set_of (fun c => ⟨rfl, rfl, rfl⟩) bcur.cells i _ hi_layout
    have hval : ∀ hi : i < b0.cells.length,
        (calcAdjStep bcur i).cells.getD i defaultCell =
          setAdj (b0.cells.getD i defaultCell)
            (adjacent_mines b0 (b0.cells.getD i defaultCell)) := by
      intro hi
      have hset : (calcAdjStep bcur i).cells.getD i defaultCell =
          setAdj (bcur.cells.getD i defaultCell)
            (adjacent_mines bcur (bcur.cells.getD i defaultCell)) := by
        simp only [calcAdjStep]
        exact getD_set_self _ (by omega)
      have hlay : LayoutEq (b0.cells.getD i defaultCell) (bcur.cells.getD i defaultCell) := by
        rcases hdis i hi with hcase | hcase
        · rw [hcase]; exact ⟨rfl, rfl⟩
        · rw [hcase]; exact ⟨rfl, rfl⟩
      have hadj : adjacent_mines bcur (bcur.cells.getD i defaultCell) =
          adjacent_mines b0 (b0.cells.getD i defaultCell) :=
        (adjacent_mines_congr hw.symm hh.symm hf₂ hlay).symm
      rw [hset, hadj]
      rcases hdis i hi with hcase | hcase
      · rw [hcase]
      · rw [hcase, setAdj_setAdj]
    have hne : ∀ k, k ≠ i →
        (calcAdjStep bcur i).cells.getD k defaultCell =
          bcur.cells.getD k defaultCell := by
      intro k hk
      simp only [calcAdjStep]
      exact getD_set_ne _ (fun he => hk he.symm)
    have hdisnext : ∀ k, k < b0.cells.length →
        (calcAdjStep bcur i).cells.getD k defaultCell = b0.cells.getD k defaultCell ∨
        (calcAdjStep bcur i).cells.getD k defaultCell =
          setAdj (b0.cells.getD k defaultCell)
            (adjacent_mines b0 (b0.cells.getD k defaultCell)) := by
      intro k hk
      by_cases hki : k = i
      · subst hki
        exact Or.inr (hval hk)
      · rw [hne k hki]
        exact hdis k hk
    obtain ⟨c1, c2, c3, c4, c5, c6, c7⟩ := ih (calcAdjStep bcur i)
      b0 hw hh hm hsr hsc hf₂next hdisnext
    rw [hstep]
    refine ⟨c1, c2, c3, c4, c5, c6, ?_⟩
    intro k hk
    constructor
    · intro hmem
      rcases List.mem_cons.mp hmem with hki | hkrest
      · subst hki
        by_cases hkrest : k ∈ rest
        · exact (c7 k hk).1 hkrest
        · rw [(c7 k hk).2 hkrest]
          exact hval hk
      · exact (c7 k hk).1 hkrest
    · intro hnmem
      have hki : k ≠ i := fun he => hnmem (he ▸ List.mem_cons_self i rest)
      have hkrest : k ∉ rest := fun hr => hnmem (List.mem_cons_of_mem i hr)
      rw [(c7 k hk).2 hkrest]
      exact hne k hki

theorem calculate_adjacent_mines_spec (b : Board) :
    (calculate_adjacent_mines b).width = b.width ∧
    (calculate_adjacent_mines b).height = b.height ∧
    (calculate_adjacent_mines b).mines = b.mines ∧
    (calculate_adjacent_mines b).selected_row = b.selected_row ∧
    (calculate_adjacent_mines b).selected_col = b.selected_col ∧
    (calculate_adjacent_mines b).cells.length = b.cells.length ∧
    ∀ k, k < b.cells.length →
      (calculate_adjacent_mines b).cells.getD k defaultCell =
        setAdj (b.cells.getD k defaultCell)
          (adjacent_mines b (b.cells.getD k defaultCell)) := by
  obtain ⟨c1, c2, c3, c4, c5, c6, c7⟩ := calcAdjGo_spec (List.range b.cells.length) b b
    rfl rfl rfl rfl rfl (forall₂_refl_of (fun c => ⟨rfl, rfl, rfl⟩) b.cells)
    (fun k _ => Or.inl rfl)
  refine ⟨c1, c2, c3, c4, c5, c6, ?_⟩
  intro k hk
  exact (c7 k hk).1 (List.mem_range.mpr hk)

/-- C1 (amended): on every well-formed board (cell list laid out by
`generate_cells`, any mine/flag/reveal fields) whose width and height fit in
`i8` (both at most 127), after `calculate_adjacent_mines` runs, the
`adjacent_mines` field of every cell equals the number of its in-bounds
8-neighbors (orthogonal and diagonal) whose `is_mine` is true.  The bound is forced by
the `as i8` casts of the source: `calculate_adjacent_mines_i8_cex` shows the
unrestricted claim is false on a 1x129 board. -/
theorem calculate_adjacent_mines_spec_small {b : Board} (hwf : WellFormed b)
    (hw : b.width ≤ 127) (hh : b.height ≤ 127) :
    ∀ k, k < b.cells.length →
      ((calculate_adjacent_mines b).cells.getD k defaultCell).adjacent_mines =
        ((specAdjacentMines b (k / b.width) (k % b.width) : Nat) : Int) := by
  intro k hk
  obtain ⟨-, -, -, -, -, -, c7⟩ := calculate_adjacent_mines_spec b
  rw [c7 k hk]
  exact adjacent_mines_spec hwf hw hh hk

/-- Witness for C1: the amended theorem applied to the concrete 2x2 board of
`relocGame` at cell 0. -/
theorem calculate_adjacent_mines_spec_small_witness :
    WellFormed relocGame.board ∧ relocGame.board.width ≤ 127 ∧
    relocGame.board.height ≤ 127 ∧ 0 < relocGame.board.cells.length ∧
    ((calculate_adjacent_mines relocGame.board).cells.getD 0 defaultCell).adjacent_mines =
      ((specAdjacentMines relocGame.board (0 / relocGame.board.width)
        (0 % relocGame.board.width) : Nat) : Int) :=
  ⟨by decide, by decide, by decide, by decide,
    calculate_adjacent_mines_spec_small (by decide) (by decide) (by decide) 0 (by decide)⟩

set_option maxRecDepth 40000 in
/-- Counterexample to C1 as stated: on the 1x129 board `colBoard129` (the
cell at row 0 has a mine neighbor at row 1), `height as i8` is -127, so the
neighbor bounds check of `relative_cell_index` rejects every neighbor and
cell 0 gets adjacency 0 instead of 1. -/
theorem calculate_adjacent_mines_i8_cex :
    WellFormed colBoard129 ∧ colBoard129.height = 129 ∧
    0 < colBoard129.cells.length ∧
    ((calculate_adjacent_mines colBoard129).cells.getD 0 defaultCell).adjacent_mines ≠
      ((specAdjacentMines colBoard129 (0 / colBoard129.width)
        (0 % colBoard129.width) : Nat) : Int) := by
  refine ⟨by decide, rfl, by decide, ?_⟩
  obtain ⟨-, -, -, -, -, -, c7⟩ := calculate_adjacent_mines_spec colBoard129
  rw [c7 0 (by decide)]
  decide

/-- C9 (amended): on every well-formed board whose dimensions are at most
127, the linear scans agree with direct row-major arithmetic:
`cell_from_pos` returns `some (row*width + col)` on in-bounds coordinates
and `none` otherwise, and `relative_cell_index` (at the unit offsets the
source uses) returns `some ((row+dr)*width + (col+dc))` exactly when the
offset position is in bounds and `none` otherwise.  The dimension bound is
forced by the `as i8` casts: `relative_cell_index_i8_cex` refutes the
unrestricted claim. -/
theorem lookup_eq_arith_small {b : Board} (hwf : WellFormed b) (hw : b.width ≤ 127)
    (hh : b.height ≤ 127) :
    (∀ rn cn : Nat, rn < b.height → cn < b.width →
      cell_from_pos (toI8 rn) (toI8 cn) b = some (rn * b.width + cn)) ∧
    (∀ r c : Int, ¬(0 ≤ r ∧ r < (b.height : Int) ∧ 0 ≤ c ∧ c < (b.width : Int)) →
      cell_from_pos r c b = none) ∧
    (∀ k, k < b.cells.length → ∀ dr dc : Int, -1 ≤ dr → dr ≤ 1 → -1 ≤ dc → dc ≤ 1 →
      relative_cell_index dr dc (b.cells.getD k defaultCell) b =
        (if 0 ≤ ((k / b.width : Nat) : Int) + dr ∧
            ((k / b.width : Nat) : Int) + dr < (b.height : Int) ∧
            0 ≤ ((k % b.width : Nat) : Int) + dc ∧
            ((k % b.width : Nat) : Int) + dc < (b.width : Int)
         then some (((((k / b.width : Nat) : Int) + dr).toNat) * b.width +
           ((((k % b.width : Nat) : Int) + dc).toNat))
         else none)) :=
  ⟨fun _ _ hr hc => cell_from_pos_wf hwf hw hh hr hc,
   fun _ _ hnot => cell_from_pos_none hwf hw hh hnot,
   fun _ hk _ _ h1 h2 h3 h4 => relative_cell_index_wf hwf hw hh hk h1 h2 h3 h4⟩

/-- Witness for C9: the amended equivalence applied to the concrete 2x2
board `zeroBoard` at position (1,1). -/
theorem lookup_eq_arith_small_witness :
    WellFormed zeroBoard ∧ zeroBoard.width ≤ 127 ∧ zeroBoard.height ≤ 127 ∧
    1 < zeroBoard.height ∧ 1 < zeroBoard.width ∧
    cell_from_pos (toI8 1) (toI8 1) zeroBoard = some (1 * zeroBoard.width + 1) :=
  ⟨by decide, by decide, by decide, by decide, by decide,
    (lookup_eq_arith_small (by decide) (by decide) (by decide)).1 1 1
      (by decide) (by decide)⟩

set_option maxRecDepth 40000 in
/-- Counterexample to C9 as stated: on the 1x129 board, the neighbor one
row below cell (0,0) is in bounds, yet `relative_cell_index` returns `none`
instead of `some 1`, because the bounds check compares against
`height as i8 = -127`. -/
theorem relative_cell_index_i8_cex :
    (colBoard129.cells.getD 0 defaultCell).row = 0 ∧
    (colBoard129.cells.getD 0 defaultCell).col = 0 ∧
    ((0 : Int) + 1) < (colBoard129.height : Int) ∧
    ((0 : Int) + 0) < (colBoard129.width : Int) ∧
    relative_cell_index 1 0 (colBoard129.cells.getD 0 defaultCell) colBoard129 ≠
      some ((0 + 1) * colBoard129.width + 0) ∧
    relative_cell_index 1 0 (colBoard129.cells.getD 0 defaultCell) colBoard129 =
      none := by
  decide

/-! Flood-fill: what one run may do. -/

theorem revStep_trans : ∀ a b c : Cell, RevStep a b → RevStep b c → RevStep a c := by
  intro a b c h1 h2
  rcases h1 with heq | ⟨hm, hr, heq⟩
  · subst heq; exact h2
  · subst heq
    rcases h2 with heq2 | ⟨hm2, hr2, heq2⟩
    · subst heq2; exact Or.inr ⟨hm, hr, rfl⟩
    · simp [setRev] at hr2

theorem reveals_only_refl (l : List Cell) : RevealsOnly l l :=
  forall₂_refl_of (fun _ => Or.inl rfl) l

theorem reveals_only_trans {l1 l2 l3 : List Cell} (h1 : RevealsOnly l1 l2)
    (h2 : RevealsOnly l2 l3) : RevealsOnly l1 l3 :=
  forall₂_trans_of revStep_trans h1 h2

theorem revealOutcome_refl (b : Board) : RevealOutcome b b :=
  ⟨rfl, rfl, rfl, rfl, rfl, reveals_only_refl _⟩

theorem revealOutcome_trans {a b c : Board} (h1 : RevealOutcome a b)
    (h2 : RevealOutcome b c) : RevealOutcome a c :=
  ⟨h2.1.trans h1.1, h2.2.1.trans h1.2.1, h2.2.2.1.trans h1.2.2.1,
   h2.2.2.2.1.trans h1.2.2.2.1, h2.2.2.2.2.1.trans h1.2.2.2.2.1,
   reveals_only_trans h1.2.2.2.2.2 h2.2.2.2.2.2⟩

theorem revealOutcome_set {b : Board} {j : Nat} {cj : Cell}
    (hj : b.cells.get? j = some cj) (hm : cj.is_mine = false)
    (hr : cj.is_revealed = false) :
    RevealOutcome b { b with cells := b.cells.set j (setRev cj) } := by
  refine ⟨rfl, rfl, rfl, rfl, rfl, ?_⟩
  apply forall₂_set_of (fun _ => Or.inl rfl)
  rw [getD_of_get?_some hj]
  exact Or.inr ⟨hm, hr, rfl⟩

theorem reveal_go_fuel_outcome :
    ∀ (fuel : Nat) (b : Board) (l : List (Option Nat)),
      RevealOutcome b (reveal_go_fuel fuel b l) := by
  intro fuel
  induction fuel with
  | zero => intro b l; exact revealOutcome_refl b
  | succ fuel ih =>
    intro b l
    cases l with
    | nil => exact revealOutcome_refl b
    | cons hd rest =>
      cases hd with
      | none => exact ih b rest
      | some j =>
        cases hj : b.cells.get? j with
        | none =>
          simp only [reveal_go_fuel, hj]
          exact ih b rest
        | some cj =>
          by_cases hguard : cj.is_mine = false ∧ cj.is_revealed = false
          · simp only [reveal_go_fuel, hj, if_pos hguard]
            have hstep : RevealOutcome b { b with cells := b.cells.set j (setRev cj) } :=
              revealOutcome_set hj hguard.1 hguard.2
            by_cases hadj :
                ((b.cells.set j (setRev cj)).getD j defaultCell).adjacent_mines = 0
            · rw [if_pos hadj]
              exact revealOutcome_trans
                (revealOutcome_trans hstep (ih _ _)) (ih _ rest)
            · rw [if_neg hadj]
              exact revealOutcome_trans hstep (ih _ rest)
          · simp only [reveal_go_fuel, hj, if_neg hguard]
            exact ih b rest

theorem reveal_cells_around_outcome (b : Board) (cell_index : Nat) :
    RevealOutcome b (reveal_cells_around b cell_index) :=
  reveal_go_fuel_outcome _ b _

theorem unrevealedCount_le_of_revealsOnly {l l' : List Cell}
    (h : RevealsOnly l l') : unrevealedCount l' ≤ unrevealedCount l := by
  induction h with
  | nil => exact Nat.le_refl _
  | @cons a b t t' hab htail ih =>
    unfold unrevealedCount at *
    rw [List.countP_cons, List.countP_cons]
    rcases hab with heq | ⟨_, hr, heq⟩
    · subst heq; omega
    · subst heq
      simp only [setRev, hr]
      norm_num
      omega

theorem revealedCount_bound_of_revealsOnly {l l' : List Cell}
    (h : RevealsOnly l l') :
    revealedCount l' ≤
      revealedCount l + l.countP (fun c => !c.is_mine && !c.is_revealed) := by
  induction h with
  | nil => exact Nat.le_refl _
  | @cons a b t t' hab htail ih =>
    unfold revealedCount at *
    rw [List.countP_cons, List.countP_cons, List.countP_cons]
    rcases hab with heq | ⟨hm, hr, heq⟩
    · subst heq; omega
    · subst heq
      simp only [setRev, hm, hr]
      norm_num
      omega

theorem unrevealedCount_set_lt {l : List Cell} {j : Nat} {cj : Cell}
    (hj : l.get? j = some cj) (hr : cj.is_revealed = false) :
    unrevealedCount (l.set j (setRev cj)) < unrevealedCount l := by
  obtain ⟨hjl, hget⟩ := List.get?_eq_some.mp hj
  have hgetEl : l[j] = cj := hget
  have hpos : 0 < l.countP (fun c => !c.is_revealed) := by
    apply List.countP_pos.mpr
    refine ⟨cj, List.get?_mem hj, ?_⟩
    simp [hr]
  rw [unrevealedCount, unrevealedCount, List.countP_set _ _ _ _ hjl, hgetEl]
  simp only [hr, setRev]
  norm_num
  exact ⟨cj, List.get?_mem hj, hr⟩

theorem cells_around_length (b : Board) (c : Cell) :
    (cells_around b c).length = 8 := rfl

theorem reveal_go_fuel_stable :
    ∀ (f1 f2 : Nat) (b : Board) (l : List (Option Nat)),
      9 * unrevealedCount b.cells + l.length < f1 →
      9 * unrevealedCount b.cells + l.length < f2 →
      reveal_go_fuel f1 b l = reveal_go_fuel f2 b l := by
  intro f1
  induction f1 with
  | zero => intro f2 b l h1 h2; omega
  | succ f1 ih =>
    intro f2 b l h1 h2
    cases f2 with
    | zero => omega
    | succ f2 =>
      cases l with
      | nil => rfl
      | cons hd rest =>
        rw [List.length_cons] at h1 h2
        cases hd with
        | none =>
          show reveal_go_fuel f1 b rest = reveal_go_fuel f2 b rest
          exact ih f2 b rest (by omega) (by omega)
        | some j =>
          cases hj : b.cells.get? j with
          | none =>
            simp only [reveal_go_fuel, hj]
            exact ih f2 b rest (by omega) (by omega)
          | some cj =>
            by_cases hguard : cj.is_mine = false ∧ cj.is_revealed = false
            · simp only [reveal_go_fuel, hj, if_pos hguard]
              have hu1 : unrevealedCount (b.cells.set j (setRev cj)) <
                  unrevealedCount b.cells := unrevealedCount_set_lt hj hguard.2
              have hinner : reveal_go_fuel f1
                    { b with cells := b.cells.set j (setRev cj) }
                    (cells_around { b with cells := b.cells.set j (setRev cj) }
                      (((b.cells.set j (setRev cj))).getD j defaultCell)) =
                  reveal_go_fuel f2
                    { b with cells := b.cells.set j (setRev cj) }
                    (cells_around { b with cells := b.cells.set j (setRev cj) }
                      (((b.cells.set j (setRev cj))).getD j defaultCell)) := by
                apply ih
                · rw [cells_around_length]
                  simp only []
                  omega
                · rw [cells_around_length]
                  simp only []
                  omega
              by_cases hadj :
                  (((b.cells.set j (setRev cj))).getD j defaultCell).adjacent_mines = 0
              · rw [if_pos hadj, if_pos hadj, hinner]
                have hout := reveal_go_fuel_outcome f2
                  { b with cells := b.cells.set j (setRev cj) }
                  (cells_around { b with cells := b.cells.set j (setRev cj) }
                    (((b.cells.set j (setRev cj))).getD j defaultCell))
                have hu2 := unrevealedCount_le_of_revealsOnly hout.2.2.2.2.2
                apply ih
                · simp only [] at hu2
                  omega
                · simp only [] at hu2
                  omega
              · rw [if_neg hadj, if_neg hadj]
                apply ih
                · simp only []
                  omega
                · simp only []
                  omega
            · simp only [reveal_go_fuel, hj, if_neg hguard]
              exact ih f2 b rest (by omega) (by omega)

/-- C4: flood-filling from a cell whose recorded adjacency is zero
terminates (any fuel beyond the bound computes the same board, so the
source recursion bottoms out), touches only the cells and keeps the length;
every cell is either untouched or was an unrevealed non-mine cell that
only had `is_revealed` set; mine cells and already-revealed cells are left
exactly as they were (never revealed again, never revisited); and the
number of revealed cells grows by at most the number of unrevealed
non-mine cells, in particular by at most the total number of non-mine
cells. -/
theorem reveal_cells_around_spec {b : Board} {cell_index : Nat}
    (hadj : (b.cells.getD cell_index defaultCell).adjacent_mines = 0) :
    (∀ fuel, 9 * b.cells.length + 8 < fuel →
      reveal_go_fuel fuel b (cells_around b (b.cells.getD cell_index defaultCell)) =
        reveal_cells_around b cell_index) ∧
    (reveal_cells_around b cell_index).cells.length = b.cells.length ∧
    (∀ k, k < b.cells.length →
      (reveal_cells_around b cell_index).cells.getD k defaultCell =
        b.cells.getD k defaultCell ∨
      ((b.cells.getD k defaultCell).is_mine = false ∧
       (b.cells.getD k defaultCell).is_revealed = false ∧
       (reveal_cells_around b cell_index).cells.getD k defaultCell =
         setRev (b.cells.getD k defaultCell))) ∧
    (∀ k, k < b.cells.length → (b.cells.getD k defaultCell).is_mine = true →
      (reveal_cells_around b cell_index).cells.getD k defaultCell =
        b.cells.getD k defaultCell) ∧
    (∀ k, k < b.cells.length → (b.cells.getD k defaultCell).is_revealed = true →
      (reveal_cells_around b cell_index).cells.getD k defaultCell =
        b.cells.getD k defaultCell) ∧
    revealedCount (reveal_cells_around b cell_index).cells ≤
      revealedCount b.cells +
        b.cells.countP (fun c => !c.is_mine && !c.is_revealed) ∧
    revealedCount (reveal_cells_around b cell_index).cells ≤
      revealedCount b.cells + nonMineCount b.cells := by
  have hout := reveal_cells_around_outcome b cell_index
  obtain ⟨hw, hh, hm, hsr, hsc, hrx⟩ := hout
  have hlen : b.cells.length = (reveal_cells_around b cell_index).cells.length :=
    forall₂_length hrx
  have hcell : ∀ k, k < b.cells.length →
      RevStep (b.cells.getD k defaultCell)
        ((reveal_cells_around b cell_index).cells.getD k defaultCell) :=
    fun k hk => forall₂_getD hrx k hk
  refine ⟨?_, hlen.symm, ?_, ?_, ?_, ?_, ?_⟩
  · intro fuel hf
    have hu : unrevealedCount b.cells ≤ b.cells.length := List.countP_le_length _
    rw [reveal_cells_around]
    apply reveal_go_fuel_stable
    · rw [cells_around_length]; omega
    · rw [cells_around_length]; omega
  · intro k hk
    exact hcell k hk
  · intro k hk hmine
    rcases hcell k hk with heq | ⟨hm2, _, _⟩
    · exact heq
    · rw [hmine] at hm2; cases hm2
  · intro k hk hrev
    rcases hcell k hk with heq | ⟨_, hr2, _⟩
    · exact heq
    · rw [hrev] at hr2; cases hr2
  · exact revealedCount_bound_of_revealsOnly hrx
  · have h1 := revealedCount_bound_of_revealsOnly hrx
    have h2 : b.cells.countP (fun c => !c.is_mine && !c.is_revealed) ≤
        nonMineCount b.cells := by
      apply List.countP_mono_left
      intro a _ ha
      simp only [Bool.and_eq_true] at ha
      exact ha.1
    omega

/-- Witness for C4: the flood-fill properties applied to the mine-free 2x2
board `zeroBoard` at cell 0 (whose recorded adjacency is zero). -/
theorem reveal_cells_around_spec_witness :
    (zeroBoard.cells.getD 0 defaultCell).adjacent_mines = 0 ∧
    (reveal_cells_around zeroBoard 0).cells.length = zeroBoard.cells.length :=
  ⟨by decide, (reveal_cells_around_spec (by decide)).2.1⟩

/-! First-move safety. -/

theorem layoutEq_trans : ∀ a b c : Cell, LayoutEq a b → LayoutEq b c → LayoutEq a c :=
  fun _ _ _ h1 h2 => ⟨h1.1.trans h2.1, h1.2.trans h2.2⟩

theorem layoutEq_of_revStep {a b : Cell} (h : RevStep a b) : LayoutEq a b := by
  rcases h with heq | ⟨_, _, heq⟩ <;> subst heq
  · exact ⟨rfl, rfl⟩
  · exact ⟨rfl, rfl⟩

theorem calculate_layout (b : Board) :
    List.Forall₂ LayoutEq b.cells (calculate_adjacent_mines b).cells := by
  obtain ⟨-, -, -, -, -, c6, c7⟩ := calculate_adjacent_mines_spec b
  apply forall₂_of_pointwise _ _ c6.symm
  intro k hk
  rw [c7 k hk]
  exact ⟨rfl, rfl⟩

theorem revStep_mine_eq {a b : Cell} (h : RevStep a b) : b.is_mine = a.is_mine := by
  rcases h with heq | ⟨_, _, heq⟩ <;> subst heq <;> rfl


theorem revealPhase_spec {gm : Minesweeper} {ci : Nat}
    (hci : ci < gm.board.cells.length)
    (hmine : (gm.board.cells.getD ci defaultCell).is_mine = false) :
    ((revealPhase gm ci).board.cells.getD ci defaultCell).is_mine = false ∧
    ((revealPhase gm ci).board.cells.getD ci defaultCell).is_revealed = true ∧
    (revealPhase gm ci).first_move = (if gm.first_move then false else gm.first_move) ∧
    (revealPhase gm ci).board.selected_row = gm.board.selected_row ∧
    (revealPhase gm ci).board.selected_col = gm.board.selected_col ∧
    List.Forall₂ LayoutEq gm.board.cells (revealPhase gm ci).board.cells := by
  rw [revealPhase]
  by_cases hrev : (gm.board.cells.getD ci defaultCell).is_revealed = false
  · rw [if_pos hrev]
    set b2 := if (gm.board.cells.getD ci defaultCell).adjacent_mines = 0 then
        reveal_cells_around gm.board ci else gm.board with hb2
    have hb2out : RevealOutcome gm.board b2 := by
      rw [hb2]
      split_ifs
      · exact reveal_cells_around_outcome gm.board ci
      · exact revealOutcome_refl gm.board
    obtain ⟨w2, h2, m2, sr2, sc2, rx2⟩ := hb2out
    have hlenb2 : b2.cells.length = gm.board.cells.length :=
      (forall₂_length rx2).symm
    have hcib2 : ci < b2.cells.length := by omega
    have hget : (b2.cells.set ci (setRev (b2.cells.getD ci defaultCell))).getD ci
        defaultCell = setRev (b2.cells.getD ci defaultCell) :=
      getD_set_self _ hcib2
    refine ⟨?_, ?_, rfl, sr2, sc2, ?_⟩
    · rw [hget]
      show (b2.cells.getD ci defaultCell).is_mine = false
      rw [revStep_mine_eq (forall₂_getD rx2 ci hci)]
      exact hmine
    · rw [hget]
      rfl
    · apply forall₂_trans_of layoutEq_trans
        (List.Forall₂.imp (fun a b h => layoutEq_of_revStep h) rx2)
      apply forall₂_set_of (fun _ => ⟨rfl, rfl⟩)
      exact ⟨rfl, rfl⟩
  · rw [if_neg hrev]
    have hrevT : (gm.board.cells.getD ci defaultCell).is_revealed = true := by
      rcases Bool.eq_false_or_eq_true (gm.board.cells.getD ci defaultCell).is_revealed
        with hc | hc
      · exact hc
      · exact absurd hc hrev
    exact ⟨hmine, hrevT, rfl, rfl, rfl, forall₂_refl_of (fun _ => ⟨rfl, rfl⟩) _⟩

/-- C3: if the very first reveal of the session (`first_move = true`)
targets a mine, the game does not transition to Lost: the action returns a
continuing state in which the cell the cursor named is no longer a mine and
is revealed, `first_move` is false, the cursor has not moved, and the
cursor lookup still resolves to the same cell index. -/
theorem first_move_safety {g : Minesweeper} {ci : Nat}
    (hlook : cell_from_pos (toI8 g.board.selected_row) (toI8 g.board.selected_col)
      g.board = some ci)
    (hm : (g.board.cells.getD ci defaultCell).is_mine = true)
    (hfm : g.first_move = true) :
    ∃ g', reveal_action g = some (StepOutcome.ok g') ∧
      (g'.board.cells.getD ci defaultCell).is_mine = false ∧
      (g'.board.cells.getD ci defaultCell).is_revealed = true ∧
      g'.first_move = false ∧
      g'.board.selected_row = g.board.selected_row ∧
      g'.board.selected_col = g.board.selected_col ∧
      cell_from_pos (toI8 g'.board.selected_row) (toI8 g'.board.selected_col)
        g'.board = some ci := by
  have hci : ci < g.board.cells.length := by
    have := find_pos_some_bound g.board.cells 0 ci hlook
    omega
  set newcells : List Cell :=
    g.board.cells.set ci (setMine (g.board.cells.getD ci defaultCell) false) with hnc
  set bcl : Board := { g.board with cells := newcells } with hbcl
  obtain ⟨k1, k2, k3, k4, k5, k6, k7⟩ := calculate_adjacent_mines_spec bcl
  have hlenbcl : bcl.cells.length = g.board.cells.length := by
    simp only [hbcl, hnc, List.length_set]
  have hlenb1 : (calculate_adjacent_mines bcl).cells.length = g.board.cells.length := by
    omega
  have hcibcl : ci < bcl.cells.length := by omega
  have hcib1 : ci < (calculate_adjacent_mines bcl).cells.length := by omega
  have hbclgetD : bcl.cells.getD ci defaultCell =
      setMine (g.board.cells.getD ci defaultCell) false := by
    simp only [hbcl, hnc]
    exact getD_set_self _ hci
  have hmine1 : ((calculate_adjacent_mines bcl).cells.getD ci defaultCell).is_mine =
      false := by
    rw [k7 ci hcibcl, hbclgetD]
    rfl
  have hsel1r : (calculate_adjacent_mines bcl).selected_row = g.board.selected_row := k4
  have hsel1c : (calculate_adjacent_mines bcl).selected_col = g.board.selected_col := k5
  have hlay1 : List.Forall₂ LayoutEq g.board.cells (calculate_adjacent_mines bcl).cells := by
    apply forall₂_trans_of layoutEq_trans _ (calculate_layout bcl)
    show List.Forall₂ LayoutEq g.board.cells bcl.cells
    rw [hbcl, hnc]
    apply forall₂_set_of (fun _ => ⟨rfl, rfl⟩)
    exact ⟨rfl, rfl⟩
  have hstep : reveal_action g =
      some (StepOutcome.ok
        (revealPhase { g with board := calculate_adjacent_mines bcl } ci)) := by
    rw [reveal_action, hlook]
    simp only [hm, if_true, hfm, hbcl, hnc]
  set gm : Minesweeper := { g with board := calculate_adjacent_mines bcl } with hgm
  have hspec := @revealPhase_spec gm ci hcib1 hmine1
  obtain ⟨p1, p2, p3, p4, p5, p6⟩ := hspec
  refine ⟨revealPhase gm ci, hstep, p1, p2, ?_, ?_, ?_, ?_⟩
  · rw [p3]
    simp only [hgm, hfm, if_true]
  · rw [p4]
    exact hsel1r
  · rw [p5]
    exact hsel1c
  · have hlayAll : List.Forall₂ LayoutEq g.board.cells (revealPhase gm ci).board.cells :=
      forall₂_trans_of layoutEq_trans hlay1 p6
    rw [cell_from_pos, p4, p5, hsel1r, hsel1c]
    rw [← find_pos_congr hlayAll 0]
    exact hlook

/-- Witness for C3: the 2x2 scenario `relocGame` (mines everywhere except
(0,0), cursor on the mine at (1,1), first move pending). -/
theorem first_move_safety_witness :
    cell_from_pos (toI8 relocGame.board.selected_row)
      (toI8 relocGame.board.selected_col) relocGame.board = some 3 ∧
    (relocGame.board.cells.getD 3 defaultCell).is_mine = true ∧
    relocGame.first_move = true ∧
    (∃ g', reveal_action relocGame = some (StepOutcome.ok g') ∧
      (g'.board.cells.getD 3 defaultCell).is_mine = false ∧
      (g'.board.cells.getD 3 defaultCell).is_revealed = true ∧
      g'.first_move = false ∧
      g'.board.selected_row = relocGame.board.selected_row ∧
      g'.board.selected_col = relocGame.board.selected_col ∧
      cell_from_pos (toI8 g'.board.selected_row) (toI8 g'.board.selected_col)
        g'.board = some 3) :=
  ⟨by decide, by decide, by decide,
    @first_move_safety relocGame 3 (by decide) (by decide) (by decide)⟩

/-! Cursor movement. -/

theorem move_left_spec (b : Board) (hr : b.selected_row < b.height)
    (hc : b.selected_col < b.width) :
    (move_left b).cells = b.cells ∧ (move_left b).width = b.width ∧
    (move_left b).height = b.height ∧ (move_left b).mines = b.mines ∧
    (move_left b).selected_row = b.selected_row ∧
    (move_left b).selected_row < b.height ∧ (move_left b).selected_col < b.width ∧
    (b.selected_col = 0 → move_left b = b) ∧
    (0 < b.selected_col → move_left b = { b with selected_col := b.selected_col - 1 }) := by
  rw [move_left]
  split_ifs with h
  · exact ⟨rfl, rfl, rfl, rfl, rfl, hr, by simp only []; omega,
      fun h0 => absurd h0 (by omega), fun _ => rfl⟩
  · exact ⟨rfl, rfl, rfl, rfl, rfl, hr, hc, fun _ => rfl,
      fun hpos => absurd hpos (by omega)⟩

theorem move_right_spec (b : Board) (hr : b.selected_row < b.height)
    (hc : b.selected_col < b.width) :
    (move_right b).cells = b.cells ∧ (move_right b).width = b.width ∧
    (move_right b).height = b.height ∧ (move_right b).mines = b.mines ∧
    (move_right b).selected_row = b.selected_row ∧
    (move_right b).selected_row < b.height ∧ (move_right b).selected_col < b.width ∧
    (b.selected_col = b.width - 1 → move_right b = b) ∧
    (b.selected_col < b.width - 1 →
      move_right b = { b with selected_col := b.selected_col + 1 }) := by
  rw [move_right]
  split_ifs with h
  · exact ⟨rfl, rfl, rfl, rfl, rfl, hr, by simp only []; omega,
      fun h0 => absurd h0 (by omega), fun _ => rfl⟩
  · exact ⟨rfl, rfl, rfl, rfl, rfl, hr, hc, fun _ => rfl,
      fun hlt => absurd hlt (by omega)⟩

theorem move_up_spec (b : Board) (hr : b.selected_row < b.height)
    (hc : b.selected_col < b.width) :
    (move_up b).cells = b.cells ∧ (move_up b).width = b.width ∧
    (move_up b).height = b.height ∧ (move_up b).mines = b.mines ∧
    (move_up b).selected_col = b.selected_col ∧
    (move_up b).selected_row < b.height ∧ (move_up b).selected_col < b.width ∧
    (b.selected_row = 0 → move_up b = b) ∧
    (0 < b.selected_row → move_up b = { b with selected_row := b.selected_row - 1 }) := by
  rw [move_up]
  split_ifs with h
  · exact ⟨rfl, rfl, rfl, rfl, rfl, by simp only []; omega, hc,
      fun h0 => absurd h0 (by omega), fun _ => rfl⟩
  · exact ⟨rfl, rfl, rfl, rfl, rfl, hr, hc, fun _ => rfl,
      fun hpos => absurd hpos (by omega)⟩

theorem move_down_spec (b : Board) (hr : b.selected_row < b.height)
    (hc : b.selected_col < b.width) :
    (move_down b).cells = b.cells ∧ (move_down b).width = b.width ∧
    (move_down b).height = b.height ∧ (move_down b).mines = b.mines ∧
    (move_down b).selected_col = b.selected_col ∧
    (move_down b).selected_row < b.height ∧ (move_down b).selected_col < b.width ∧
    (b.selected_row = b.height - 1 → move_down b = b) ∧
    (b.selected_row < b.height - 1 →
      move_down b = { b with selected_row := b.selected_row + 1 }) := by
  rw [move_down]
  split_ifs with h
  · exact ⟨rfl, rfl, rfl, rfl, rfl, by simp only []; omega, hc,
      fun h0 => absurd h0 (by omega), fun _ => rfl⟩
  · exact ⟨rfl, rfl, rfl, rfl, rfl, hr, hc, fun _ => rfl,
      fun hlt => absurd hlt (by omega)⟩

/-- C7: with the cursor in bounds, each arrow-key action moves the cursor
by exactly one in its direction when not at the corresponding boundary and
is a no-op at the boundary; the cursor stays in bounds, and nothing else
changes: cells, dimensions, mine count and `first_move` are untouched. -/
theorem move_cursor_spec {g : Minesweeper}
    (hr : g.board.selected_row < g.board.height)
    (hc : g.board.selected_col < g.board.width) :
    (∀ d, (move_cursor d g).first_move = g.first_move ∧
      (move_cursor d g).board.cells = g.board.cells ∧
      (move_cursor d g).board.width = g.board.width ∧
      (move_cursor d g).board.height = g.board.height ∧
      (move_cursor d g).board.mines = g.board.mines ∧
      (move_cursor d g).board.selected_row < g.board.height ∧
      (move_cursor d g).board.selected_col < g.board.width) ∧
    (g.board.selected_col = 0 → move_cursor Direction.left g = g) ∧
    (0 < g.board.selected_col →
      (move_cursor Direction.left g).board.selected_col = g.board.selected_col - 1 ∧
      (move_cursor Direction.left g).board.selected_row = g.board.selected_row) ∧
    (g.board.selected_col = g.board.width - 1 → move_cursor Direction.right g = g) ∧
    (g.board.selected_col < g.board.width - 1 →
      (move_cursor Direction.right g).board.selected_col = g.board.selected_col + 1 ∧
      (move_cursor Direction.right g).board.selected_row = g.board.selected_row) ∧
    (g.board.selected_row = 0 → move_cursor Direction.up g = g) ∧
    (0 < g.board.selected_row →
      (move_cursor Direction.up g).board.selected_row = g.board.selected_row - 1 ∧
      (move_cursor Direction.up g).board.selected_col = g.board.selected_col) ∧
    (g.board.selected_row = g.board.height - 1 → move_cursor Direction.down g = g) ∧
    (g.board.selected_row < g.board.height - 1 →
      (move_cursor Direction.down g).board.selected_row = g.board.selected_row + 1 ∧
      (move_cursor Direction.down g).board.selected_col = g.board.selected_col) := by
  obtain ⟨l1, l2, l3, l4, l5, l6, l7, l8, l9⟩ := move_left_spec g.board hr hc
  obtain ⟨r1, r2, r3, r4, r5, r6, r7, r8, r9⟩ := move_right_spec g.board hr hc
  obtain ⟨u1, u2, u3, u4, u5, u6, u7, u8, u9⟩ := move_up_spec g.board hr hc
  obtain ⟨d1, d2, d3, d4, d5, d6, d7, d8, d9⟩ := move_down_spec g.board hr hc
  refine ⟨?_, ?_, ?_, ?_, ?_, ?_, ?_, ?_, ?_⟩
  · intro d
    cases d
    · exact ⟨rfl, l1, l2, l3, l4, l6, l7⟩
    · exact ⟨rfl, r1, r2, r3, r4, r6, r7⟩
    · exact ⟨rfl, u1, u2, u3, u4, u6, u7⟩
    · exact ⟨rfl, d1, d2, d3, d4, d6, d7⟩
  · intro h0
    show { g with board := move_left g.board } = g
    rw [l8 h0]
  · intro hpos
    constructor
    · show (move_left g.board).selected_col = _
      rw [l9 hpos]
    · exact l5
  · intro h0
    show { g with board := move_right g.board } = g
    rw [r8 h0]
  · intro hlt
    constructor
    · show (move_right g.board).selected_col = _
      rw [r9 hlt]
    · exact r5
  · intro h0
    show { g with board := move_up g.board } = g
    rw [u8 h0]
  · intro hpos
    constructor
    · show (move_up g.board).selected_row = _
      rw [u9 hpos]
    · exact u5
  · intro h0
    show { g with board := move_down g.board } = g
    rw [d8 h0]
  · intro hlt
    constructor
    · show (move_down g.board).selected_row = _
      rw [d9 hlt]
    · exact d5

/-- Witness for C7: the clamped-cursor properties at the concrete game
`zeroGame`, whose cursor sits at the origin of a 2x2 board. -/
theorem move_cursor_spec_witness :
    zeroGame.board.selected_row < zeroGame.board.height ∧
    zeroGame.board.selected_col < zeroGame.board.width ∧
    move_cursor Direction.left zeroGame = zeroGame ∧
    move_cursor Direction.up zeroGame = zeroGame :=
  ⟨by decide, by decide,
    (move_cursor_spec (by decide) (by decide)).2.1 rfl,
    (move_cursor_spec (by decide) (by decide)).2.2.2.2.2.1 rfl⟩

/-- C8: on a well-formed board with the cursor in bounds (the only states
the clamped cursor movement can produce), the cursor lookup always
succeeds with an in-range index, so the selected-cell-missing
panic branch is unreachable. -/
theorem cursor_lookup_succeeds {b : Board} (hwf : WellFormed b)
    (hr : b.selected_row < b.height) (hc : b.selected_col < b.width) :
    ∃ i, cell_from_pos (toI8 b.selected_row) (toI8 b.selected_col) b = some i ∧
      i < b.cells.length := by
  obtain ⟨hlen, hcells⟩ := hwf
  have hw0 : 0 < b.width := by omega
  have ht : b.selected_row * b.width + b.selected_col < b.cells.length := by
    have h1 : b.selected_row * b.width + b.selected_col <
        (b.selected_row + 1) * b.width := by
      rw [Nat.succ_mul]; omega
    have h2 : (b.selected_row + 1) * b.width ≤ b.height * b.width :=
      Nat.mul_le_mul_right _ (by omega)
    omega
  obtain ⟨hrow, hcol⟩ := hcells _ ht
  have hdiv : (b.selected_row * b.width + b.selected_col) / b.width =
      b.selected_row := by
    rw [Nat.mul_comm, Nat.add_comm (b.width * b.selected_row) b.selected_col,
      Nat.add_mul_div_left _ _ hw0, Nat.div_eq_of_lt hc, Nat.zero_add]
  have hmod : (b.selected_row * b.width + b.selected_col) % b.width =
      b.selected_col := by
    rw [Nat.mul_comm, Nat.add_comm (b.width * b.selected_row) b.selected_col,
      Nat.add_mul_mod_self_left, Nat.mod_eq_of_lt hc]
  have hex : ∃ cc ∈ b.cells, toI8 cc.row = toI8 b.selected_row ∧
      toI8 cc.col = toI8 b.selected_col := by
    refine ⟨b.cells.getD (b.selected_row * b.width + b.selected_col) defaultCell,
      getD_mem ht, ?_, ?_⟩
    · rw [hrow, hdiv]
    · rw [hcol, hmod]
  obtain ⟨j, hj⟩ := find_pos_exists b.cells 0 hex
  refine ⟨j, hj, ?_⟩
  have := find_pos_some_bound b.cells 0 j hj
  omega

/-- Witness for C8: the lookup succeeds on the concrete board `zeroBoard`. -/
theorem cursor_lookup_succeeds_witness :
    WellFormed zeroBoard ∧ zeroBoard.selected_row < zeroBoard.height ∧
    zeroBoard.selected_col < zeroBoard.width ∧
    (∃ i, cell_from_pos (toI8 zeroBoard.selected_row) (toI8 zeroBoard.selected_col)
      zeroBoard = some i ∧ i < zeroBoard.cells.length) :=
  ⟨by decide, by decide, by decide,
    cursor_lookup_succeeds (by decide) (by decide) (by decide)⟩

/-! Flag toggling. -/

theorem flipFlag_flipFlag (c : Cell) : flipFlag (flipFlag c) = c := by
  cases c
  simp [flipFlag]

/-- C10: when the cursor lookup succeeds, toggling the flag changes only
the `is_flagged` field of the cell at the cursor (whatever its mine or
reveal state), and toggling twice restores the game state exactly. -/
theorem toggle_flag_involution {g : Minesweeper} {ci : Nat}
    (hlook : cell_from_pos (toI8 g.board.selected_row) (toI8 g.board.selected_col)
      g.board = some ci) :
    ∃ g1, toggle_flag_action g = some g1 ∧
      g1.first_move = g.first_move ∧
      g1.board.width = g.board.width ∧
      g1.board.height = g.board.height ∧
      g1.board.mines = g.board.mines ∧
      g1.board.selected_row = g.board.selected_row ∧
      g1.board.selected_col = g.board.selected_col ∧
      g1.board.cells.length = g.board.cells.length ∧
      (g1.board.cells.getD ci defaultCell).is_flagged =
        !(g.board.cells.getD ci defaultCell).is_flagged ∧
      (g1.board.cells.getD ci defaultCell).is_mine =
        (g.board.cells.getD ci defaultCell).is_mine ∧
      (g1.board.cells.getD ci defaultCell).is_revealed =
        (g.board.cells.getD ci defaultCell).is_revealed ∧
      (g1.board.cells.getD ci defaultCell).adjacent_mines =
        (g.board.cells.getD ci defaultCell).adjacent_mines ∧
      (g1.board.cells.getD ci defaultCell).row =
        (g.board.cells.getD ci defaultCell).row ∧
      (g1.board.cells.getD ci defaultCell).col =
        (g.board.cells.getD ci defaultCell).col ∧
      (∀ k, k ≠ ci →
        g1.board.cells.getD k defaultCell = g.board.cells.getD k defaultCell) ∧
      toggle_flag_action g1 = some g := by
  have hci : ci < g.board.cells.length := by
    have := find_pos_some_bound g.board.cells 0 ci hlook
    omega
  set newcells : List Cell :=
    g.board.cells.set ci (flipFlag (g.board.cells.getD ci defaultCell)) with hnc
  set g1 : Minesweeper := { g with board := { g.board with cells := newcells } } with hg1
  have hstep : toggle_flag_action g = some g1 := by
    rw [toggle_flag_action, hlook]
  have hgetg1 : g1.board.cells.getD ci defaultCell =
      flipFlag (g.board.cells.getD ci defaultCell) := by
    simp only [hg1, hnc]
    exact getD_set_self _ hci
  have hlay : List.Forall₂ LayoutEq g.board.cells g1.board.cells := by
    simp only [hg1, hnc]
    apply forall₂_set_of (fun _ => ⟨rfl, rfl⟩)
    exact ⟨rfl, rfl⟩
  have hlook2 : cell_from_pos (toI8 g1.board.selected_row)
      (toI8 g1.board.selected_col) g1.board = some ci := by
    show find_pos (toI8 g.board.selected_row) (toI8 g.board.selected_col)
      g1.board.cells 0 = some ci
    rw [← find_pos_congr hlay 0]
    exact hlook
  have hcells2 : g1.board.cells.set ci
      (flipFlag (g1.board.cells.getD ci defaultCell)) = g.board.cells := by
    rw [hgetg1, flipFlag_flipFlag]
    show newcells.set ci (g.board.cells.getD ci defaultCell) = g.board.cells
    rw [hnc, List.set_set]
    exact set_getD_self hci
  have hsecond : toggle_flag_action g1 = some g := by
    rw [toggle_flag_action, hlook2]
    show some { g1 with board := { g1.board with cells := g1.board.cells.set ci (flipFlag (g1.board.cells.getD ci defaultCell)) } } = some g
    rw [hcells2]
  refine ⟨g1, hstep, rfl, rfl, rfl, rfl, rfl, rfl, ?_, ?_, ?_, ?_, ?_, ?_, ?_, ?_, hsecond⟩
  · simp only [hg1, hnc, List.length_set]
  · rw [hgetg1]; rfl
  · rw [hgetg1]; rfl
  · rw [hgetg1]; rfl
  · rw [hgetg1]; rfl
  · rw [hgetg1]; rfl
  · rw [hgetg1]; rfl
  · intro k hk
    simp only [hg1, hnc]
    exact getD_set_ne _ (fun he => hk he.symm)

/-- Witness for C10: flag toggling on the concrete game `zeroGame`. -/
theorem toggle_flag_involution_witness :
    cell_from_pos (toI8 zeroGame.board.selected_row)
      (toI8 zeroGame.board.selected_col) zeroGame.board = some 0 ∧
    (∃ g1, toggle_flag_action zeroGame = some g1 ∧
      (g1.board.cells.getD 0 defaultCell).is_flagged =
        !(zeroGame.board.cells.getD 0 defaultCell).is_flagged ∧
      toggle_flag_action g1 = some zeroGame) := by
  refine ⟨by decide, ?_⟩
  obtain ⟨g1, h1, _, _, _, _, _, _, _, hflag, _, _, _, _, _, _, h2⟩ :=
    @toggle_flag_involution zeroGame 0 (by decide)
  exact ⟨g1, h1, hflag, h2⟩

/-! Divergences the code exhibits at concrete inputs. -/

/-- C2 bug evidence: in the 2x2 scenario `relocGame` (three mines, cursor
on the mine at (1,1), first move pending) the reveal action relocates the
first-move mine by clearing it without re-placing it: the game continues
with only 2 mines although `board.mines` still records 3, so the stated
invariant that every operation preserves the total mine count fails. -/
theorem first_move_relocation_drops_mine_count :
    relocGame.board.mines = 3 ∧
    mineCount relocGame.board.cells = 3 ∧
    relocGame.first_move = true ∧
    (relocGame.board.cells.getD 3 defaultCell).is_mine = true ∧
    afterMineCount (reveal_action relocGame) = 2 := by
  decide

/-- C5 bug evidence: the space handler never consults `is_flagged`.  On
`flagGame` (safe cell (0,0) flagged, cursor on it) the reveal action
reveals the flagged cell instead of being a no-op, and on `flagMineGame`
(mine cell (0,1) flagged, cursor on it, after the first move) revealing the
flagged mine loses the game. -/
theorem reveal_ignores_flag :
    (flagGame.board.cells.getD 0 defaultCell).is_flagged = true ∧
    (flagGame.board.cells.getD 0 defaultCell).is_revealed = false ∧
    (flagGame.board.cells.getD 0 defaultCell).is_mine = false ∧
    (afterCell (reveal_action flagGame) 0).is_revealed = true ∧
    (afterCell (reveal_action flagGame) 0).is_flagged = true ∧
    (flagMineGame.board.cells.getD 1 defaultCell).is_flagged = true ∧
    (flagMineGame.board.cells.getD 1 defaultCell).is_mine = true ∧
    flagMineGame.first_move = false ∧
    reveal_action flagMineGame = some (StepOutcome.lost flagMineGame) := by
  decide

theorem place_mines_go_stuck :
    ∀ (fuel : Nat) (rng : Nat → Nat) (cells : List Cell) (mines placed k : Nat),
      placed + cells.countP (fun c => !c.is_mine) < mines →
      place_mines_go rng fuel cells mines placed k = none := by
  intro fuel
  induction fuel with
  | zero =>
    intro rng cells mines placed k h
    rw [place_mines_go, if_pos (by omega)]
  | succ fuel ih =>
    intro rng cells mines placed k h
    rw [place_mines_go, if_pos (by omega)]
    by_cases hlen : cells.length = 0
    · rw [if_pos hlen]
    · rw [if_neg hlen]
      have hidx : rng k % cells.length < cells.length :=
        Nat.mod_lt _ (Nat.pos_of_ne_zero hlen)
      by_cases hm : (cells.getD (rng k % cells.length) defaultCell).is_mine = false
      · rw [if_pos hm]
        apply ih
        have hbridge : cells[rng k % cells.length] =
            cells.getD (rng k % cells.length) defaultCell := by
          rw [List.getD_eq_getElem?_getD, List.getElem?_eq_getElem hidx]
          rfl
        have hpos : 0 < cells.countP (fun c => !c.is_mine) := by
          apply List.countP_pos.mpr
          refine ⟨cells.getD (rng k % cells.length) defaultCell, getD_mem hidx, ?_⟩
          simp only [hm]
          rfl
        rw [List.countP_set _ _ _ _ hidx, hbridge]
        simp only [hm, setMine]
        norm_num
        omega
      · rw [if_neg hm]
        apply ih
        omega

/-- C6 bug evidence: with one generated cell and a requested mine count of
2, the `place_mines` loop never completes, for every random stream and
every amount of fuel — the code loops forever instead of failing cleanly. -/
theorem place_mines_too_many_loops (rng : Nat → Nat) (fuel : Nat) :
    place_mines rng fuel (generate_cells 1 1) 2 = none := by
  apply place_mines_go_stuck
  decide
